import Mathlib

/-!
Verification of the dependency-resolution and build-orchestration pipeline of
the message-generation subsystem (`MessageManager.ts`).

The embedding translates the TypeScript source into Lean:
* JavaScript objects used as string-keyed maps become association lists
  (`List (String × _)`); JavaScript `Set` (insertion ordered, deduplicating)
  becomes a list with a dedup-on-insert operation;
* synchronous exceptions become `Except` / an explicit error component;
* the recursive closure traversal `getFullDependencySet`, which has no
  termination guarantee in the source, is embedded with an explicit recursion
  budget together with a call-stack (`path`) check.  The traversal's control
  flow at a given package depends only on the package, the origin and the
  immutable cache, so re-entering a package that is already on the call stack
  repeats the identical computation forever: that situation is reported as the
  distinguished outcome `DepErr.diverge`.  The budget branch `DepErr.fuelOut`
  is proved unreachable for the budget used by `getFullDependencySet`;
* `Array.prototype.sort(comparator)` (stable, and for the short package lists
  at hand realised by insertion sort in the engine) is embedded as a stable
  insertion sort threading the effectful comparator in call order;
* the asynchronous build orchestration (`loadPackage`) is embedded as a
  sequential state-transition function that additionally emits a trace of
  effect events (status updates, directory creations, file writes), so that
  ordering and absence of filesystem effects are provable statements.
-/

/-- Load status of a package, from the `LoadStatus` enum. -/
inductive LoadStatus where
  | LOADING
  | LOADED
deriving DecidableEq, Repr

/-- One entry of a per-kind message cache: the source file (`none` for
synthesized action sub-messages, which are stored with `file: null`) and the
parsed spec, represented by an opaque identifier. -/
structure MsgEntryE where
  file : Option String
  spec : Nat
deriving DecidableEq, Repr

/-- One value of the `PackageMap`: per-kind definition caches plus the set of
direct local package dependencies (`localDeps`), kept in insertion order. -/
structure PackageEntryE where
  messages : List (String × MsgEntryE)
  services : List (String × MsgEntryE)
  actions : List (String × MsgEntryE)
  localDeps : List String
deriving DecidableEq, Repr

/-- The `PackageMap`: package name to package entry. -/
abbrev PackageMapE := List (String × PackageEntryE)

/-- A cache entry that only carries dependency edges, for tests of the graph
functions. -/
def mkDepEntry (deps : List String) : PackageEntryE :=
  ⟨[], [], [], deps⟩

/-- Errors raised (or divergence exhibited) by the dependency resolver. -/
inductive DepErr where
  /-- `Error('Found circular dependency while building chain')` raised by
  `getFullDependencySet`. -/
  | cycle
  /-- `Error('Found circular dependency while sorting chain between ...')`
  raised by the `sortPackageList` comparator. -/
  | sortCycle
  /-- The `TypeError` raised by reading `.localDeps` of `cache[pkg]` when
  `pkg` is not a key of the cache. -/
  | missing
  /-- The source traversal re-entered a package already on its call stack and
  therefore loops forever. -/
  | diverge
  /-- Recursion budget exhausted (proved unreachable for the budget used by
  `getFullDependencySet`). -/
  | fuelOut
deriving DecidableEq, Repr

instance {ε α : Type} [DecidableEq ε] [DecidableEq α] : DecidableEq (Except ε α) :=
  fun a b =>
    match a, b with
    | .ok x, .ok y =>
      if h : x = y then .isTrue (by rw [h]) else .isFalse (by simp [h])
    | .ok _, .error _ => .isFalse (by simp)
    | .error _, .ok _ => .isFalse (by simp)
    | .error e, .error f =>
      if h : e = f then .isTrue (by rw [h]) else .isFalse (by simp [h])

/-- `Set.add` of the JavaScript dependency set: append if not yet present
(JavaScript sets preserve insertion order and ignore re-insertions). -/
def addSet (acc : List String) (x : String) : List String :=
  if acc.contains x then acc else acc ++ [x]

/-- `cache[pkg].localDeps` — `none` models the `TypeError` on a missing key. -/
def localDepsOf (cache : PackageMapE) (p : String) : Option (List String) :=
  (cache.lookup p).map PackageEntryE.localDeps

/-- The `localDeps.forEach` loop of `getDependencies` inside
`getFullDependencySet`: for each `dep` of the current dependency list, first
the cycle check `dep === originalPackage`, then (our divergence detection: the
package is already on the recursion stack) then `dependencyList.add(dep)`
followed by the recursive descent `childVisit dep`, and finally the rest of
the list with the enlarged accumulator. -/
def goList (childVisit : String → List String → Except DepErr (List String))
    (orig : String) (path : List String) :
    List String → List String → Except DepErr (List String)
  | [], acc => .ok acc
  | dep :: rest, acc =>
    if dep = orig then .error .cycle
    else if path.contains dep then .error .diverge
    else
      match childVisit dep (addSet acc dep) with
      | .ok acc2 => goList childVisit orig path rest acc2
      | .error e => .error e

/-- Depth-budgeted embedding of `getDependencies`: entering a package costs
one unit of budget, looks up its `localDeps` (a missing key is the raised
`TypeError`) and runs `goList` over them. -/
def visitF (cache : PackageMapE) (orig : String) :
    Nat → List String → List String → List String → Except DepErr (List String)
  | 0, _, deps, acc =>
    match deps with
    | [] => .ok acc
    | _ :: _ => .error .fuelOut
  | fuel + 1, path, deps, acc =>
    goList
      (fun dep acc' =>
        match localDepsOf cache dep with
        | none => .error .missing
        | some children => visitF cache orig fuel (dep :: path) children acc')
      orig path deps acc

/-- Recursion budget: one more than the number of cache keys.  The recursion
stack of the source traversal holds pairwise distinct cache keys (a repeat is
`DepErr.diverge`), so this budget is never exhausted. -/
def depFuel (cache : PackageMapE) : Nat :=
  (cache.map Prod.fst).length + 1

/-- `getFullDependencySet(originalPackage, cache)`: the accumulated dependency
set of the source traversal, or the error/divergence outcome. -/
def getFullDependencySet (originalPackage : String) (cache : PackageMapE) :
    Except DepErr (List String) :=
  match localDepsOf cache originalPackage with
  | none => .error .missing
  | some deps => visitF cache originalPackage (depFuel cache) [originalPackage] deps []

/-- `aDeps.includes(pkgB)` style test through a completed closure: `true` iff
`getFullDependencySet a cache` completes and its result contains `b`. -/
def dependsOn (cache : PackageMapE) (a b : String) : Bool :=
  match getFullDependencySet a cache with
  | .ok ds => ds.contains b
  | .error _ => false

/-- The pairwise decision of the `sorter` comparator of `sortPackageList`,
after the two full dependency lists have been obtained: mutual dependency is
the distinct fatal `sortCycle` error, `A` depending on `B` yields `1`
("A after B"), the converse `-1`, and incomparability `0`. -/
def sorterCheck (aDeps bDeps : List String) (pkgA pkgB : String) :
    Except DepErr Int :=
  let aDependsOnB := aDeps.contains pkgB
  let bDependsOnA := bDeps.contains pkgA
  if aDependsOnB && bDependsOnA then .error .sortCycle
  else if aDependsOnB then .ok 1
  else if bDependsOnA then .ok (-1)
  else .ok 0

/-- The `sorter` comparator: obtain both full dependency lists (the source
memoises them in `fullPkgDeps`; `getFullDependencySet` is deterministic, so
recomputation returns identical values and the memo has no observable
effect), then decide the pair. -/
def sorter (cache : PackageMapE) (pkgA pkgB : String) : Except DepErr Int := do
  let aDeps ← getFullDependencySet pkgA cache
  let bDeps ← getFullDependencySet pkgB cache
  sorterCheck aDeps bDeps pkgA pkgB

/-- Insert `x` into the already-processed list, comparing left to right and
placing `x` before the first element `y` with `cmp x y ≤ 0`; a comparator
error aborts the sort, exactly as a thrown exception aborts
`Array.prototype.sort`. -/
def orderedInsertE (cmp : String → String → Except DepErr Int) (x : String) :
    List String → Except DepErr (List String)
  | [] => .ok [x]
  | y :: ys => do
    let c ← cmp x y
    if c ≤ 0 then .ok (x :: y :: ys)
    else
      let rest ← orderedInsertE cmp x ys
      .ok (y :: rest)

/-- Stable insertion sort with an effectful comparator.  This embodies
`Array.prototype.sort(comparator)`: the sort is stable, and for package lists
of workspace size the engine realises it as insertion sort.  A one-element
list performs no comparison at all, as in the source. -/
def insertionSortE (cmp : String → String → Except DepErr Int) :
    List String → Except DepErr (List String)
  | [] => .ok []
  | x :: xs => do
    let s ← insertionSortE cmp xs
    orderedInsertE cmp x s

/-- `sortPackageList(packageList, cache)`. -/
def sortPackageList (packageList : List String) (cache : PackageMapE) :
    Except DepErr (List String) :=
  insertionSortE (sorter cache) packageList

/-- The cache with A depending on B and B depending on A. -/
def cacheTwoCycle : PackageMapE :=
  [("A", mkDepEntry ["B"]), ("B", mkDepEntry ["A"])]

/-- The cache with A depending on nothing, B on A, and C on A and B. -/
def cacheABC : PackageMapE :=
  [("A", mkDepEntry []), ("B", mkDepEntry ["A"]), ("C", mkDepEntry ["A", "B"])]

/-- A cache whose only cycle avoids package A: A → B, B → C and B → A,
C → B.  Traversal from A descends A, B, C and then re-enters B. -/
def cacheDiv : PackageMapE :=
  [("A", mkDepEntry ["B"]), ("B", mkDepEntry ["C", "A"]), ("C", mkDepEntry ["B"])]

/-- X depends on Z; Y is unrelated to both. -/
def cacheXYZ : PackageMapE :=
  [("X", mkDepEntry ["Z"]), ("Y", mkDepEntry []), ("Z", mkDepEntry [])]

/-! ### JavaScript object assignment on association lists -/

/-- `obj[k] = v` on a string-keyed JavaScript object: replace in place if the
key exists (property order is unchanged), append otherwise. -/
def setKeyL {α : Type} (m : List (String × α)) (k : String) (v : α) :
    List (String × α) :=
  if (m.lookup k).isSome then
    m.map (fun p => if p.1 = k then (k, v) else p)
  else m ++ [(k, v)]

/-! ### Reachability along dependency edges -/

/-- `Reaches cache a b`: some nonempty path of `localDeps` edges leads from
`a` to `b`. -/
inductive Reaches (cache : PackageMapE) : String → String → Prop
  | head {a b : String} {ds : List String} :
      localDepsOf cache a = some ds → b ∈ ds → Reaches cache a b
  | cons {a b c : String} {ds : List String} :
      localDepsOf cache a = some ds → b ∈ ds → Reaches cache b c →
      Reaches cache a c

/-- Number of cache keys not yet on the traversal stack. -/
def keysOutside (cache : PackageMapE) (path : List String) : Nat :=
  ((cache.map Prod.fst).filter (fun k => !(path.contains k))).length

/-- After-sortedness invariant: no earlier element depends on a later one. -/
def NoFwdDep (cache : PackageMapE) (out : List String) : Prop :=
  out.Pairwise (fun a b => dependsOn cache a b = false)

/-! ### The message-map construction of `_loadMessagesInCache`

For one package, `_loadMessagesInCache` first copies every on-disk message
file into the `messages` object (an entry holding the spec and the file),
then for each
action adds each synthesized sub-message spec (`spec.getMessages()`, the
Goal/Result/Feedback family, produced by the external parser and therefore
universally quantified here) under an entry whose file is `null` — but
only if `packageInfo.messages` (the raw on-disk file map) has no own property
of that name. -/

/-- On-disk messages are triples (name, source file, parsed spec id);
`actionSubs` lists, per action in iteration order, the synthesized
sub-message (name, spec id) pairs of that action. -/
def buildPkgMessages (onDiskMsgs : List (String × String × Nat))
    (actionSubs : List (List (String × Nat))) : List (String × MsgEntryE) :=
  let base := onDiskMsgs.map (fun t => (t.1, MsgEntryE.mk (some t.2.1) t.2.2))
  actionSubs.foldl
    (fun msgs subs =>
      subs.foldl
        (fun msgs sub =>
          if (onDiskMsgs.lookup sub.1).isSome then msgs
          else setKeyL msgs sub.1 (MsgEntryE.mk none sub.2))
        msgs)
    base

/-- The facts preserved by the synthesized-sub-message insertion loops. -/
def SynthInv (onDiskMsgs : List (String × String × Nat))
    (msgs : List (String × MsgEntryE)) : Prop :=
  (∀ n f s, (n, (f, s)) ∈ onDiskMsgs →
      msgs.lookup n = some (MsgEntryE.mk (some f) s)) ∧
  (∀ n e, onDiskMsgs.lookup n = none → msgs.lookup n = some e →
      e.file = none)

/-! ### The build orchestration of `loadPackage`

`loadPackage` is embedded as a sequential state-transition function over the
orchestrator state (the `_loadingPkgs` map and the immutable
`_packageCache`), returning the final state, a trace of effect events in
program order, and an optional first error.  The source awaits its dependency
builds through `Promise.all` on one cooperative thread; the embedding runs
them in dispatch order and stops at the first failure, which realises the
fail-fast join for the properties considered here.  Recursion through the
dependency fan-out is bounded by an explicit budget (`BuildErr.fuelOut`). -/

/-- Effect events emitted by a build run, in program order. -/
inductive Ev where
  /-- `this._loadingPkgs.set(name, status)` -/
  | setStatus (name : String) (status : LoadStatus)
  /-- A directory creation performed by `createDirectory`. -/
  | mkdir (path : String)
  /-- A file write performed by `writeFile`. -/
  | fileWrite (path : String)
deriving DecidableEq, Repr

/-- Errors aborting a build run. -/
inductive BuildErr where
  /-- An error thrown by `getFullDependencySet` or `sortPackageList`. -/
  | dep (e : DepErr)
  /-- The `TypeError` raised by the write phase when the package has no cache
  entry. -/
  | missingPkg
  /-- Recursion budget exhausted (embedding artefact). -/
  | fuelOut
deriving DecidableEq, Repr

/-- The mutable state of one `MessageManager` instance. -/
structure MMState where
  loadingPkgs : List (String × LoadStatus)
  packageCache : PackageMapE
deriving DecidableEq, Repr

/-- Sequentialised `Promise.all(dependencies.map(step))`: run each dependency
build in dispatch order, propagating the first failure. -/
def depsLoop (step : String → MMState → MMState × List Ev × Option BuildErr) :
    List String → MMState → MMState × List Ev × Option BuildErr
  | [], st => (st, [], none)
  | d :: rest, st =>
    let r1 := step d st
    match r1.2.2 with
    | some e => (r1.1, r1.2.1, some e)
    | none =>
      let r2 := depsLoop step rest r1.1
      (r2.1, r1.2.1 ++ r2.2.1, r2.2.2)

/-- Events of `initPackageWrite`: package directory, message subdirectory and
index when the package has messages or actions, service subdirectory and
index when it has services, then the package-level index. -/
def initPackageWriteEvents (entry : PackageEntryE)
    (jsMsgDir packageName : String) : List Ev :=
  let packageDir := jsMsgDir ++ "/" ++ packageName
  [Ev.mkdir packageDir]
    ++ (if entry.messages.length > 0 || entry.actions.length > 0 then
          [Ev.mkdir (packageDir ++ "/msg"),
           Ev.fileWrite (packageDir ++ "/msg/_index.js")]
        else [])
    ++ (if entry.services.length > 0 then
          [Ev.mkdir (packageDir ++ "/srv"),
           Ev.fileWrite (packageDir ++ "/srv/_index.js")]
        else [])
    ++ [Ev.fileWrite (packageDir ++ "/_index.js")]

/-- Events of `writePackageMessages`: one binding file per message, in cache
iteration order. -/
def writePackageMessagesEvents (entry : PackageEntryE)
    (jsMsgDir packageName : String) : List Ev :=
  entry.messages.map
    (fun m => Ev.fileWrite (jsMsgDir ++ "/" ++ packageName ++ "/msg/" ++ m.1 ++ ".js"))

/-- Events of `writePackageServices`. -/
def writePackageServicesEvents (entry : PackageEntryE)
    (jsMsgDir packageName : String) : List Ev :=
  entry.services.map
    (fun m => Ev.fileWrite (jsMsgDir ++ "/" ++ packageName ++ "/srv/" ++ m.1 ++ ".js"))

/-- The whole write phase of `loadPackage` in program order. -/
def writePhaseEvents (entry : PackageEntryE)
    (jsMsgDir packageName : String) : List Ev :=
  initPackageWriteEvents entry jsMsgDir packageName
    ++ writePackageMessagesEvents entry jsMsgDir packageName
    ++ writePackageServicesEvents entry jsMsgDir packageName

/-- The body of `loadPackage`, with the dependency recursion abstracted as
`recur`:
1. if the package already has a `LoadStatus` entry, return immediately;
2. otherwise set its status to `LOADING` (the first emitted event, before
   anything that can suspend);
3. if `loadDeps`, compute the sorted full dependency list (exceptions from
   `getFullDependencySet`/`sortPackageList` abort here), apply
   `filterDepFunc` when given, and build every remaining dependency;
4. if `writeFiles`, create the output structure and write every binding,
   then set the status to `LOADED`. -/
def loadPackageBody
    (recur : String → MMState → MMState × List Ev × Option BuildErr)
    (packageName outputDirectory : String) (loadDeps writeFiles : Bool)
    (filterDepFunc : Option (String → Bool)) (st : MMState) :
    MMState × List Ev × Option BuildErr :=
  if (st.loadingPkgs.lookup packageName).isSome then (st, [], none)
  else
    let st1 : MMState :=
      { st with
        loadingPkgs := setKeyL st.loadingPkgs packageName LoadStatus.LOADING }
    let depsRes : Except DepErr (List String) :=
      if loadDeps then
        match getFullDependencySet packageName st.packageCache with
        | .error e => .error e
        | .ok ds =>
          match sortPackageList ds st.packageCache with
          | .error e => .error e
          | .ok sorted =>
            .ok (match filterDepFunc with
                 | some f => sorted.filter f
                 | none => sorted)
      else .ok []
    match depsRes with
    | .error e =>
      (st1, [Ev.setStatus packageName LoadStatus.LOADING],
       some (BuildErr.dep e))
    | .ok dependencies =>
      let r2 := depsLoop recur dependencies st1
      match r2.2.2 with
      | some e =>
        (r2.1, Ev.setStatus packageName LoadStatus.LOADING :: r2.2.1, some e)
      | none =>
        if writeFiles then
          match r2.1.packageCache.lookup packageName with
          | none =>
            (r2.1, Ev.setStatus packageName LoadStatus.LOADING :: r2.2.1,
             some BuildErr.missingPkg)
          | some entry =>
            ({ r2.1 with
               loadingPkgs :=
                 setKeyL r2.1.loadingPkgs packageName LoadStatus.LOADED },
             Ev.setStatus packageName LoadStatus.LOADING ::
               (r2.2.1 ++ writePhaseEvents entry outputDirectory packageName
                 ++ [Ev.setStatus packageName LoadStatus.LOADED]),
             none)
        else
          (r2.1, Ev.setStatus packageName LoadStatus.LOADING :: r2.2.1, none)

/-- `loadPackage(packageName, outputDirectory, loadDeps, writeFiles,
filterDepFunc)` with an explicit recursion budget. -/
def loadPackage :
    Nat → String → String → Bool → Bool → Option (String → Bool) → MMState →
    MMState × List Ev × Option BuildErr
  | 0, packageName, outputDirectory, loadDeps, writeFiles, filterDepFunc, st =>
    loadPackageBody (fun _ s => (s, [], some BuildErr.fuelOut))
      packageName outputDirectory loadDeps writeFiles filterDepFunc st
  | fuel + 1, packageName, outputDirectory, loadDeps, writeFiles,
      filterDepFunc, st =>
    loadPackageBody
      (fun d s =>
        loadPackage fuel d outputDirectory loadDeps writeFiles filterDepFunc s)
      packageName outputDirectory loadDeps writeFiles filterDepFunc st

/-- A run that writes nothing to the filesystem, never marks any package
`LOADED`, preserves every existing `LoadStatus` binding, and leaves the cache
untouched. -/
def QuietRun (st : MMState) (r : MMState × List Ev × Option BuildErr) : Prop :=
  (∀ n, Ev.setStatus n LoadStatus.LOADED ∉ r.2.1) ∧
  (∀ p, Ev.mkdir p ∉ r.2.1) ∧
  (∀ p, Ev.fileWrite p ∉ r.2.1) ∧
  (∀ n s, st.loadingPkgs.lookup n = some s →
    r.1.loadingPkgs.lookup n = some s) ∧
  r.1.packageCache = st.packageCache

/-! ### `getMessageSpec` -/

/-- The definition kind requested from `getMessageSpec` (`'msg' | 'srv'`). -/
inductive MsgKindE where
  | msg
  | srv
deriving DecidableEq, Repr

/-- `messageName.toLowerCase()`: lowercase every character (the embedding
lowers the ASCII range, which covers message-definition names). -/
def toLowerCaseE (s : String) : String :=
  String.mk (s.data.map Char.toLower)

/-- `getMessageSpec(msgType, type)` after the external
`fieldsUtil.splitMessageType` has split `msgType` into the package and the
definition name: look the package up in the cache, select the per-kind cache,
try the exact name, then its all-lowercase form, and return `null`
otherwise.  The function is total: it raises nothing. -/
def getMessageSpec (cache : PackageMapE) (pkg messageName : String)
    (type : MsgKindE) : Option Nat :=
  match cache.lookup pkg with
  | none => none
  | some entry =>
    let pkgCache :=
      match type with
      | .msg => entry.messages
      | .srv => entry.services
    match pkgCache.lookup messageName with
    | some e => some e.spec
    | none =>
      match pkgCache.lookup (toLowerCaseE messageName) with
      | some e => some e.spec
      | none => none

/-- The per-kind cache selected by the `switch` of `getMessageSpec`. -/
def kindCache (entry : PackageEntryE) (type : MsgKindE) :
    List (String × MsgEntryE) :=
  match type with
  | .msg => entry.messages
  | .srv => entry.services

/-! ### `getTypeStringForBuiltin` -/

/-- The fixed builtin-type table of `getTypeStringForBuiltin`, in source
order. -/
def typeMap : List (String × String) :=
  [("char", "number"),
   ("byte", "number"),
   ("bool", "boolean"),
   ("int8", "number"),
   ("uint8", "number"),
   ("int16", "number"),
   ("uint16", "number"),
   ("int32", "number"),
   ("uint32", "number"),
   ("int64", "number"),
   ("uint64", "number"),
   ("float32", "number"),
   ("float64", "number"),
   ("string", "string"),
   ("time", "BuiltinTime"),
   ("duration", "BuiltinTime")]

/-- The message of the error thrown for a scalar kind outside the table. -/
def unknownBuiltinMsg (fieldType : String) : String :=
  "Unable to get type string for builtin [" ++ fieldType ++ "]"

/-- `getTypeStringForBuiltin(fieldType)`: table lookup, throwing an
`Error('Unable to get type string for builtin [...]')` on a miss. -/
def getTypeStringForBuiltin (fieldType : String) : Except String String :=
  match typeMap.lookup fieldType with
  | some val => .ok val
  | none => .error (unknownBuiltinMsg fieldType)

/-- The two-field shape named `BuiltinTime` by the generated type text
(`type BuiltinTime = ...` with fields `secs` and `nsecs`, both numbers). -/
def builtinTimeShape : List (String × String) :=
  [("secs", "number"), ("nsecs", "number")]

/-- The builtin kinds enumerated by the specification's description of the
table (integers of the four widths, `bool`, `byte`, `char`, `string`,
`time`, `duration`). -/
def specEnumeratedKinds : List String :=
  ["int8", "int16", "int32", "int64", "uint8", "uint16", "uint32", "uint64",
   "bool", "byte", "char", "string", "time", "duration"]

/-- A cache in which the full dependency set of every package resolves
without error: no dependency cycle and no missing reference among the cached
packages. -/
def cacheAcyclicOk (cache : PackageMapE) : Bool :=
  (cache.map Prod.fst).all (fun p =>
    match getFullDependencySet p cache with
    | .ok _ => true
    | .error _ => false)

/-- A one-package cache for the C9 witness, with a lowercase-keyed
message. -/
def c9cache : PackageMapE :=
  [("std_msgs",
    PackageEntryE.mk [("header", MsgEntryE.mk (some "Header.msg") 7)] [] [] [])]

example : getFullDependencySet "A" cacheTwoCycle = .error .cycle := by decide

example : getFullDependencySet "B" cacheTwoCycle = .error .cycle := by decide

example : getFullDependencySet "C" cacheABC = .ok ["A", "B"] := by decide

example : getFullDependencySet "A" cacheABC = .ok [] := by decide

example : getFullDependencySet "Q" cacheABC = .error .missing := by decide

example : getFullDependencySet "A" cacheDiv = .error .diverge := by decide

example : sortPackageList ["X", "Y", "Z"] cacheXYZ = .ok ["X", "Y", "Z"] := by decide

example : dependsOn cacheXYZ "X" "Z" = true := by decide

example : sortPackageList ["C", "B", "A"] cacheABC = .ok ["A", "B", "C"] := by decide

theorem lookup_map_replace_self {α : Type} (k : String) (v : α) :
    ∀ (m : List (String × α)), (m.lookup k).isSome = true →
      (m.map (fun p => if p.1 = k then (k, v) else p)).lookup k = some v := by
  intro m
  induction m with
  | nil => intro h; simp [List.lookup] at h
  | cons p t ih =>
    intro h
    by_cases hpk : p.1 = k
    · simp only [List.map_cons, if_pos hpk]
      rw [List.lookup]
      simp
    · simp only [List.map_cons, if_neg hpk]
      rw [List.lookup] at h ⊢
      have hbk : (k == p.1) = false := by
        simp
        exact fun hh => hpk hh.symm
      rw [hbk] at h ⊢
      exact ih h

theorem lookup_map_replace_other {α : Type} {k k' : String} (v : α)
    (hne : k' ≠ k) :
    ∀ (m : List (String × α)),
      (m.map (fun p => if p.1 = k then (k, v) else p)).lookup k' =
        m.lookup k' := by
  intro m
  induction m with
  | nil => simp
  | cons p t ih =>
    by_cases hpk : p.1 = k
    · simp only [List.map_cons, if_pos hpk]
      rw [List.lookup]
      conv_rhs => rw [List.lookup]
      have h1 : (k' == k) = false := by simpa using hne
      have h2 : (k' == p.1) = false := by rw [hpk]; exact h1
      rw [h1, h2]
      exact ih
    · simp only [List.map_cons, if_neg hpk]
      rw [List.lookup]
      conv_rhs => rw [List.lookup]
      cases hbk : (k' == p.1) with
      | false => exact ih
      | true => rfl

theorem lookup_append_single_self {α : Type} (k : String) (v : α) :
    ∀ (m : List (String × α)), m.lookup k = none →
      (m ++ [(k, v)]).lookup k = some v := by
  intro m
  induction m with
  | nil =>
    intro _
    rw [List.nil_append, List.lookup]
    simp
  | cons p t ih =>
    intro h
    rw [List.cons_append, List.lookup]
    rw [List.lookup] at h
    cases hbk : (k == p.1) with
    | true =>
      rw [hbk] at h
      simp at h
    | false =>
      rw [hbk] at h
      exact ih h

theorem lookup_append_single_other {α : Type} {k k' : String} (v : α)
    (hne : k' ≠ k) :
    ∀ (m : List (String × α)),
      (m ++ [(k, v)]).lookup k' = m.lookup k' := by
  intro m
  induction m with
  | nil =>
    rw [List.nil_append, List.lookup, List.lookup]
    have hbk : (k' == k) = false := by simpa using hne
    rw [hbk]
    rfl
  | cons p t ih =>
    rw [List.cons_append, List.lookup]
    conv_rhs => rw [List.lookup]
    cases hbk : (k' == p.1) with
    | false => exact ih
    | true => rfl

theorem lookup_setKeyL_self {α : Type} (m : List (String × α)) (k : String)
    (v : α) : (setKeyL m k v).lookup k = some v := by
  unfold setKeyL
  split
  · next hsome => exact lookup_map_replace_self k v m hsome
  · next hnone =>
    apply lookup_append_single_self
    cases hl : m.lookup k with
    | none => rfl
    | some w => rw [hl] at hnone; simp at hnone

theorem lookup_setKeyL_other {α : Type} (m : List (String × α))
    {k k' : String} (v : α) (hne : k' ≠ k) :
    (setKeyL m k v).lookup k' = m.lookup k' := by
  unfold setKeyL
  split
  · exact lookup_map_replace_other v hne m
  · exact lookup_append_single_other v hne m

theorem lookup_isSome_of_mem {α : Type} :
    ∀ {m : List (String × α)} {k : String} {v : α},
      (k, v) ∈ m → (m.lookup k).isSome = true := by
  intro m
  induction m with
  | nil => intro k v h; cases h
  | cons p t ih =>
    intro k v h
    rw [List.lookup]
    rcases List.mem_cons.1 h with rfl | hmem
    · simp
    · split
      · simp
      · exact ih hmem

theorem lookup_of_mem_nodup {α : Type} :
    ∀ {m : List (String × α)} {k : String} {v : α},
      (m.map Prod.fst).Nodup → (k, v) ∈ m → m.lookup k = some v := by
  intro m
  induction m with
  | nil => intro k v _ h; cases h
  | cons p t ih =>
    intro k v hnd h
    rw [List.map_cons, List.nodup_cons] at hnd
    rw [List.lookup]
    rcases List.mem_cons.1 h with rfl | hmem
    · simp
    · have hk : k ≠ p.1 := by
        intro hkp
        apply hnd.1
        rw [← hkp]
        exact List.mem_map_of_mem Prod.fst hmem
      have hbk : (k == p.1) = false := by simpa using hk
      rw [hbk]
      exact ih hnd.2 hmem

theorem lookup_eq_none_iff {α : Type} :
    ∀ (m : List (String × α)) (k : String),
      m.lookup k = none ↔ k ∉ m.map Prod.fst := by
  intro m
  induction m with
  | nil => intro k; simp [List.lookup]
  | cons p t ih =>
    intro k
    rw [List.lookup]
    constructor
    · intro h hk
      split at h
      · simp at h
      · next hbk =>
        rcases List.mem_cons.1 hk with heq | hmem
        · rw [heq] at hbk
          simp at hbk
        · exact (ih k).1 h hmem
    · intro hk
      simp only [List.map_cons, List.mem_cons, not_or] at hk
      have hbk : (k == p.1) = false := by simpa using hk.1
      rw [hbk]
      exact (ih k).2 hk.2

/-! ### Outcome characterisation of the traversal

The lemmas below characterise the four outcomes of the embedded
`getFullDependencySet` traversal against `Reaches`-reachability, and show
that the recursion budget used by `getFullDependencySet` is never exhausted,
so `DepErr.fuelOut` is an artefact of the embedding only. -/

theorem Reaches.trans {cache : PackageMapE} {a b c : String}
    (h1 : Reaches cache a b) (h2 : Reaches cache b c) : Reaches cache a c := by
  induction h1 with
  | head hds hmem => exact Reaches.cons hds hmem h2
  | cons hds hmem _ ih => exact Reaches.cons hds hmem (ih h2)

/-! ### Small facts about the association-list and set primitives -/

theorem mem_addSet_self (acc : List String) (x : String) : x ∈ addSet acc x := by
  unfold addSet
  split
  · next h => simpa using h
  · simp

theorem mem_of_mem_addSet {acc : List String} {x y : String}
    (h : y ∈ addSet acc x) : y ∈ acc ∨ y = x := by
  unfold addSet at h
  split at h
  · exact Or.inl h
  · rcases List.mem_append.1 h with h' | h'
    · exact Or.inl h'
    · simp at h'
      exact Or.inr h'

theorem mem_addSet_of_mem {acc : List String} {x y : String}
    (h : y ∈ acc) : y ∈ addSet acc x := by
  unfold addSet
  split
  · exact h
  · exact List.mem_append_left _ h

theorem mem_keys_of_lookup {α : Type} :
    ∀ (l : List (α × List String)) {k : α} {v : List String} [BEq α] [LawfulBEq α],
      l.lookup k = some v → k ∈ l.map Prod.fst := by
  intro l
  induction l with
  | nil => intro k v _ _ h; simp [List.lookup] at h
  | cons p t ih =>
    intro k v _ _ h
    rw [List.lookup] at h
    split at h
    · next heq => simp only [beq_iff_eq] at heq; simp [heq]
    · exact List.mem_cons_of_mem _ (ih h)

theorem mem_keys_of_localDeps {cache : PackageMapE} {p : String}
    {ds : List String} (h : localDepsOf cache p = some ds) :
    p ∈ cache.map Prod.fst := by
  unfold localDepsOf at h
  cases hl : cache.lookup p with
  | none => rw [hl] at h; simp at h
  | some e =>
    clear h
    induction cache with
    | nil => simp [List.lookup] at hl
    | cons q t ih =>
      rw [List.lookup] at hl
      split at hl
      · next heq => simp only [beq_iff_eq] at heq; simp [heq]
      · exact List.mem_cons_of_mem _ (ih hl)

/-! ### Monotonicity of the accumulator -/

theorem goList_ok_sub {cv : String → List String → Except DepErr (List String)}
    {orig : String} {path : List String}
    (Hcv : ∀ d a r, cv d a = .ok r → ∀ x ∈ a, x ∈ r) :
    ∀ {deps acc res : List String},
      goList cv orig path deps acc = .ok res → ∀ x ∈ acc, x ∈ res := by
  intro deps
  induction deps with
  | nil =>
    intro acc res h x hx
    simp only [goList] at h
    cases h
    exact hx
  | cons dep rest ih =>
    intro acc res h x hx
    simp only [goList] at h
    split at h
    · simp at h
    · split at h
      · simp at h
      · cases hcv : cv dep (addSet acc dep) with
        | ok acc2 =>
          rw [hcv] at h
          exact ih h x (Hcv _ _ _ hcv x (mem_addSet_of_mem hx))
        | error e =>
          rw [hcv] at h
          simp at h

theorem visitF_ok_sub {cache : PackageMapE} {orig : String} :
    ∀ {fuel : Nat} {path deps acc res : List String},
      visitF cache orig fuel path deps acc = .ok res → ∀ x ∈ acc, x ∈ res := by
  intro fuel
  induction fuel with
  | zero =>
    intro path deps acc res h x hx
    simp only [visitF] at h
    split at h
    · cases h; exact hx
    · simp at h
  | succ fuel ih =>
    intro path deps acc res h x hx
    simp only [visitF] at h
    refine goList_ok_sub ?_ h x hx
    intro d a r hcv y hy
    split at hcv
    · simp at hcv
    · exact ih hcv y hy

/-! ### The recursion budget is sufficient -/

theorem keysOutside_cons_lt {cache : PackageMapE} {path : List String}
    {d : String} (hmem : d ∈ cache.map Prod.fst) (hout : d ∉ path) :
    keysOutside cache (d :: path) < keysOutside cache path := by
  unfold keysOutside
  generalize cache.map Prod.fst = keys at hmem ⊢
  induction keys with
  | nil => cases hmem
  | cons k t ih =>
    simp only [List.filter_cons]
    by_cases hk : k = d
    · subst hk
      have hc1 : ¬((!((k :: path).contains k)) = true) := by simp
      have hc2 : (!(path.contains k)) = true := by simpa using hout
      rw [if_neg hc1, if_pos hc2]
      have hle : (t.filter fun k_1 => !((k :: path).contains k_1)).length ≤
          (t.filter fun k_1 => !(path.contains k_1)).length := by
        apply List.Sublist.length_le
        apply List.monotone_filter_right
        intro a ha
        simp at ha ⊢
        exact ha.2
      simpa using Nat.lt_succ_of_le hle
    · have hmem' : d ∈ t := by
        rcases List.mem_cons.1 hmem with h | h
        · exact absurd h.symm hk
        · exact h
      have hlt := ih hmem'
      by_cases hkp : k ∈ path
      · have hc1 : ¬((!((d :: path).contains k)) = true) := by simp [hkp]
        have hc2 : ¬((!(path.contains k)) = true) := by simp [hkp]
        rw [if_neg hc1, if_neg hc2]
        exact hlt
      · have hc1 : (!((d :: path).contains k)) = true := by
          simp [hkp]
          exact fun h => hk h
        have hc2 : (!(path.contains k)) = true := by simpa using hkp
        rw [if_pos hc1, if_pos hc2]
        simpa using Nat.succ_lt_succ hlt

theorem goList_ne_fuelOut {cv : String → List String → Except DepErr (List String)}
    {orig : String} {path : List String}
    (Hcv : ∀ d a, path.contains d = false → cv d a ≠ .error .fuelOut) :
    ∀ {deps acc : List String},
      goList cv orig path deps acc ≠ .error .fuelOut := by
  intro deps
  induction deps with
  | nil => intro acc h; simp [goList] at h
  | cons dep rest ih =>
    intro acc h
    simp only [goList] at h
    split at h
    · simp at h
    · split at h
      · simp at h
      · next hpath =>
        have hpc : path.contains dep = false := by
          simp only [Bool.not_eq_true] at hpath ⊢
          simpa using hpath
        cases hcv : cv dep (addSet acc dep) with
        | ok acc2 =>
          rw [hcv] at h
          exact ih h
        | error e =>
          rw [hcv] at h
          cases h
          exact Hcv _ _ hpc hcv

theorem visitF_ne_fuelOut {cache : PackageMapE} {orig : String} :
    ∀ {fuel : Nat} {path deps acc : List String},
      keysOutside cache path < fuel →
      visitF cache orig fuel path deps acc ≠ .error .fuelOut := by
  intro fuel
  induction fuel with
  | zero => intro path deps acc h; omega
  | succ fuel ih =>
    intro path deps acc hfuel
    simp only [visitF]
    apply goList_ne_fuelOut
    intro d a hpc
    split
    · simp
    · next children hlook =>
      apply ih
      have hmem : d ∈ cache.map Prod.fst := mem_keys_of_localDeps hlook
      have hout : d ∉ path := by
        intro hd
        simp [hd] at hpc
      have hlt := keysOutside_cons_lt hmem hout
      omega

/-- The budget branch of the embedding is unreachable: `getFullDependencySet`
never reports `DepErr.fuelOut`. -/
theorem getFullDependencySet_ne_fuelOut (orig : String) (cache : PackageMapE) :
    getFullDependencySet orig cache ≠ .error .fuelOut := by
  unfold getFullDependencySet
  split
  · simp
  · apply visitF_ne_fuelOut
    have := List.length_filter_le (fun k => !([orig].contains k)) (cache.map Prod.fst)
    unfold keysOutside depFuel
    omega

/-! ### Success outcome: the accumulated set is closed and avoids the origin -/

theorem goList_ok_master {cache : PackageMapE}
    {cv : String → List String → Except DepErr (List String)}
    {orig : String} {path : List String}
    (Hsub : ∀ d a r, cv d a = .ok r → ∀ x ∈ a, x ∈ r)
    (Hcv : ∀ d a r, cv d a = .ok r →
      ∃ children, localDepsOf cache d = some children ∧
        ∀ c ∈ children, c ≠ orig ∧ ¬ Reaches cache c orig ∧ c ∈ r ∧
          ∀ y, Reaches cache c y → y ∈ r) :
    ∀ {deps acc res : List String},
      goList cv orig path deps acc = .ok res →
      ∀ d ∈ deps, d ≠ orig ∧ ¬ Reaches cache d orig ∧ d ∈ res ∧
        ∀ y, Reaches cache d y → y ∈ res := by
  intro deps
  induction deps with
  | nil => intro acc res _ d hd; cases hd
  | cons dep rest ih =>
    intro acc res h d hd
    simp only [goList] at h
    split at h
    · simp at h
    · split at h
      · simp at h
      · next hne _ =>
        cases hcv : cv dep (addSet acc dep) with
        | error e => rw [hcv] at h; simp at h
        | ok acc2 =>
          rw [hcv] at h
          obtain ⟨children, hlook, hkids⟩ := Hcv _ _ _ hcv
          have hacc2res : ∀ x ∈ acc2, x ∈ res := goList_ok_sub Hsub h
          rcases List.mem_cons.1 hd with rfl | hdrest
          · refine ⟨hne, ?_, ?_, ?_⟩
            · intro hr
              cases hr with
              | head hds hmem =>
                rw [hlook] at hds
                cases hds
                exact (hkids _ hmem).1 rfl
              | cons hds hmem hr' =>
                rw [hlook] at hds
                cases hds
                exact (hkids _ hmem).2.1 hr'
            · exact hacc2res _ (Hsub _ _ _ hcv _ (mem_addSet_self acc d))
            · intro y hy
              cases hy with
              | head hds hmem =>
                rw [hlook] at hds
                cases hds
                exact hacc2res _ (hkids _ hmem).2.2.1
              | cons hds hmem hr' =>
                rw [hlook] at hds
                cases hds
                exact hacc2res _ ((hkids _ hmem).2.2.2 _ hr')
          · exact ih h d hdrest

theorem visitF_ok_master {cache : PackageMapE} {orig : String} :
    ∀ {fuel : Nat} {path deps acc res : List String},
      visitF cache orig fuel path deps acc = .ok res →
      ∀ d ∈ deps, d ≠ orig ∧ ¬ Reaches cache d orig ∧ d ∈ res ∧
        ∀ y, Reaches cache d y → y ∈ res := by
  intro fuel
  induction fuel with
  | zero =>
    intro path deps acc res h d hd
    simp only [visitF] at h
    split at h
    · cases hd
    · simp at h
  | succ fuel ih =>
    intro path deps acc res h d hd
    simp only [visitF] at h
    refine goList_ok_master ?_ ?_ h d hd
    · intro d' a r hcv y hy
      split at hcv
      · simp at hcv
      · exact visitF_ok_sub hcv y hy
    · intro d' a r hcv
      split at hcv
      · simp at hcv
      · next children hlook =>
        exact ⟨children, hlook, fun c hc => ih hcv c hc⟩

/-! ### Success outcome: everything accumulated is reachable -/

theorem goList_ok_sound {cache : PackageMapE}
    {cv : String → List String → Except DepErr (List String)}
    {orig : String} {path : List String}
    (Hcv : ∀ d a r, cv d a = .ok r → ∀ x ∈ r, x ∈ a ∨ Reaches cache d x) :
    ∀ {deps acc res : List String},
      goList cv orig path deps acc = .ok res →
      ∀ x ∈ res, x ∈ acc ∨ ∃ d ∈ deps, d = x ∨ Reaches cache d x := by
  intro deps
  induction deps with
  | nil =>
    intro acc res h x hx
    simp only [goList] at h
    cases h
    exact Or.inl hx
  | cons dep rest ih =>
    intro acc res h x hx
    simp only [goList] at h
    split at h
    · simp at h
    · split at h
      · simp at h
      · cases hcv : cv dep (addSet acc dep) with
        | error e => rw [hcv] at h; simp at h
        | ok acc2 =>
          rw [hcv] at h
          rcases ih h x hx with hacc2 | ⟨d, hdmem, hdx⟩
          · rcases Hcv _ _ _ hcv x hacc2 with hadd | hr
            · rcases mem_of_mem_addSet hadd with hacc | rfl
              · exact Or.inl hacc
              · exact Or.inr ⟨x, List.mem_cons_self _ _, Or.inl rfl⟩
            · exact Or.inr ⟨dep, List.mem_cons_self _ _, Or.inr hr⟩
          · exact Or.inr ⟨d, List.mem_cons_of_mem _ hdmem, hdx⟩

theorem visitF_ok_sound {cache : PackageMapE} {orig : String} :
    ∀ {fuel : Nat} {path deps acc res : List String},
      visitF cache orig fuel path deps acc = .ok res →
      ∀ x ∈ res, x ∈ acc ∨ ∃ d ∈ deps, d = x ∨ Reaches cache d x := by
  intro fuel
  induction fuel with
  | zero =>
    intro path deps acc res h x hx
    simp only [visitF] at h
    split at h
    · cases h; exact Or.inl hx
    · simp at h
  | succ fuel ih =>
    intro path deps acc res h x hx
    simp only [visitF] at h
    refine goList_ok_sound ?_ h x hx
    intro d a r hcv y hy
    split at hcv
    · simp at hcv
    · next children hlook =>
      rcases ih hcv y hy with ha | ⟨c, hcmem, hcy⟩
      · exact Or.inl ha
      · rcases hcy with rfl | hr
        · exact Or.inr (Reaches.head hlook hcmem)
        · exact Or.inr (Reaches.cons hlook hcmem hr)

/-! ### Cycle outcome: the origin is reachable -/

theorem goList_cycle_sound {cache : PackageMapE}
    {cv : String → List String → Except DepErr (List String)}
    {orig : String} {path : List String}
    (Hcv : ∀ d a, cv d a = .error .cycle → Reaches cache d orig) :
    ∀ {deps acc : List String},
      goList cv orig path deps acc = .error .cycle →
      ∃ d ∈ deps, d = orig ∨ Reaches cache d orig := by
  intro deps
  induction deps with
  | nil => intro acc h; simp [goList] at h
  | cons dep rest ih =>
    intro acc h
    simp only [goList] at h
    split at h
    · next heq => exact ⟨dep, List.mem_cons_self _ _, Or.inl heq⟩
    · split at h
      · simp at h
      · cases hcv : cv dep (addSet acc dep) with
        | error e =>
          rw [hcv] at h
          cases h
          exact ⟨dep, List.mem_cons_self _ _, Or.inr (Hcv _ _ hcv)⟩
        | ok acc2 =>
          rw [hcv] at h
          obtain ⟨d, hdmem, hd⟩ := ih h
          exact ⟨d, List.mem_cons_of_mem _ hdmem, hd⟩

theorem visitF_cycle_sound {cache : PackageMapE} {orig : String} :
    ∀ {fuel : Nat} {path deps acc : List String},
      visitF cache orig fuel path deps acc = .error .cycle →
      ∃ d ∈ deps, d = orig ∨ Reaches cache d orig := by
  intro fuel
  induction fuel with
  | zero =>
    intro path deps acc h
    simp only [visitF] at h
    split at h
    · simp at h
    · simp at h
  | succ fuel ih =>
    intro path deps acc h
    simp only [visitF] at h
    refine goList_cycle_sound ?_ h
    intro d a hcv
    split at hcv
    · simp at hcv
    · next children hlook =>
      obtain ⟨c, hcmem, hc⟩ := ih hcv
      rcases hc with rfl | hr
      · exact Reaches.head hlook hcmem
      · exact Reaches.cons hlook hcmem hr

/-! ### Top-level characterisation of `getFullDependencySet` -/

/-- On success, the returned dependency set is exactly the set of packages
reachable from the origin along `localDeps` edges. -/
theorem getFullDependencySet_ok_iff_reaches {A : String} {cache : PackageMapE}
    {ds : List String} (h : getFullDependencySet A cache = .ok ds) (x : String) :
    x ∈ ds ↔ Reaches cache A x := by
  unfold getFullDependencySet at h
  split at h
  · simp at h
  · next deps0 hlook =>
    constructor
    · intro hx
      rcases visitF_ok_sound h x hx with hnil | ⟨d, hdmem, hdx⟩
      · cases hnil
      · rcases hdx with rfl | hr
        · exact Reaches.head hlook hdmem
        · exact Reaches.cons hlook hdmem hr
    · intro hr
      cases hr with
      | head hds hmem =>
        rw [hlook] at hds
        cases hds
        exact (visitF_ok_master h _ hmem).2.2.1
      | cons hds hmem hr' =>
        rw [hlook] at hds
        cases hds
        exact (visitF_ok_master h _ hmem).2.2.2 _ hr'

/-- On success, no dependency path returns to the origin. -/
theorem getFullDependencySet_ok_not_self {A : String} {cache : PackageMapE}
    {ds : List String} (h : getFullDependencySet A cache = .ok ds) :
    ¬ Reaches cache A A := by
  unfold getFullDependencySet at h
  split at h
  · simp at h
  · next deps0 hlook =>
    intro hr
    cases hr with
    | head hds hmem =>
      rw [hlook] at hds
      cases hds
      exact (visitF_ok_master h _ hmem).1 rfl
    | cons hds hmem hr' =>
      rw [hlook] at hds
      cases hds
      exact (visitF_ok_master h _ hmem).2.1 hr'

/-- A cycle error is raised only when a dependency path from a direct
dependency of the origin returns to the origin. -/
theorem getFullDependencySet_cycle_reaches {A : String} {cache : PackageMapE}
    (h : getFullDependencySet A cache = .error .cycle) :
    Reaches cache A A := by
  unfold getFullDependencySet at h
  split at h
  · simp at h
  · next deps0 hlook =>
    obtain ⟨d, hdmem, hd⟩ := visitF_cycle_sound h
    rcases hd with rfl | hr
    · exact Reaches.head hlook hdmem
    · exact Reaches.cons hlook hdmem hr

/-- On success, the origin itself is never in its own dependency set. -/
theorem getFullDependencySet_self_not_mem {A : String} {cache : PackageMapE}
    {ds : List String} (h : getFullDependencySet A cache = .ok ds) :
    A ∉ ds := by
  intro hmem
  exact getFullDependencySet_ok_not_self h
    ((getFullDependencySet_ok_iff_reaches h A).1 hmem)

/-- Transitivity of the completed-closure dependency test. -/
theorem dependsOn_trans {cache : PackageMapE} {a b c : String}
    (hab : dependsOn cache a b = true) (hbc : dependsOn cache b c = true) :
    dependsOn cache a c = true := by
  unfold dependsOn at hab hbc ⊢
  cases ha : getFullDependencySet a cache with
  | error e => rw [ha] at hab; simp at hab
  | ok dsa =>
    rw [ha] at hab
    cases hb : getFullDependencySet b cache with
    | error e => rw [hb] at hbc; simp at hbc
    | ok dsb =>
      rw [hb] at hbc
      have hab' : b ∈ dsa := by simpa using hab
      have hbc' : c ∈ dsb := by simpa using hbc
      have hac : c ∈ dsa :=
        (getFullDependencySet_ok_iff_reaches ha c).2
          (Reaches.trans ((getFullDependencySet_ok_iff_reaches ha b).1 hab')
            ((getFullDependencySet_ok_iff_reaches hb c).1 hbc'))
      simpa using hac

/-- No package transitively depends on itself through a completed closure. -/
theorem dependsOn_self_false (cache : PackageMapE) (a : String) :
    dependsOn cache a a = false := by
  unfold dependsOn
  cases ha : getFullDependencySet a cache with
  | error e => rfl
  | ok ds =>
    have := getFullDependencySet_self_not_mem ha
    simpa using this

/-! ### Properties of the comparator -/

theorem sorter_ok_nonpos {cache : PackageMapE} {a b : String} {c : Int}
    (h : sorter cache a b = .ok c) (hc : c ≤ 0) :
    dependsOn cache a b = false := by
  unfold sorter at h
  cases ha : getFullDependencySet a cache with
  | error e => rw [ha] at h; simp [Bind.bind, Except.bind] at h
  | ok dsa =>
    rw [ha] at h
    cases hb : getFullDependencySet b cache with
    | error e => rw [hb] at h; simp [Bind.bind, Except.bind] at h
    | ok dsb =>
      rw [hb] at h
      simp only [Bind.bind, Except.bind] at h
      unfold sorterCheck at h
      dsimp only at h
      split at h
      · simp at h
      · next hboth =>
        split at h
        · cases h; omega
        · unfold dependsOn
          rw [ha]
          simp only [Bool.and_eq_true, not_and] at hboth
          next haD =>
            simpa using haD

theorem sorter_ok_pos {cache : PackageMapE} {a b : String} {c : Int}
    (h : sorter cache a b = .ok c) (hc : 0 < c) :
    dependsOn cache a b = true ∧ dependsOn cache b a = false := by
  unfold sorter at h
  cases ha : getFullDependencySet a cache with
  | error e => rw [ha] at h; simp [Bind.bind, Except.bind] at h
  | ok dsa =>
    rw [ha] at h
    cases hb : getFullDependencySet b cache with
    | error e => rw [hb] at h; simp [Bind.bind, Except.bind] at h
    | ok dsb =>
      rw [hb] at h
      simp only [Bind.bind, Except.bind] at h
      unfold sorterCheck at h
      dsimp only at h
      split at h
      · simp at h
      · next hboth =>
        split at h
        · next haD =>
          cases h
          simp only [Bool.and_eq_true, not_and] at hboth
          unfold dependsOn
          rw [ha, hb]
          refine ⟨by simpa using haD, ?_⟩
          have := hboth haD
          simpa using this
        · split at h
          · cases h; omega
          · cases h; omega

/-! ### The embedded sort: permutation and sortedness -/

theorem orderedInsertE_perm {cmp : String → String → Except DepErr Int}
    {x : String} :
    ∀ {l out : List String}, orderedInsertE cmp x l = .ok out →
      (x :: l).Perm out := by
  intro l
  induction l with
  | nil =>
    intro out h
    simp only [orderedInsertE] at h
    cases h
    exact List.Perm.refl _
  | cons y ys ih =>
    intro out h
    simp only [orderedInsertE, Bind.bind, Except.bind] at h
    cases hc : cmp x y with
    | error e => rw [hc] at h; simp at h
    | ok c =>
      rw [hc] at h
      dsimp only at h
      split at h
      · cases h
        exact List.Perm.refl _
      · cases hrest : orderedInsertE cmp x ys with
        | error e => rw [hrest] at h; simp at h
        | ok out' =>
          rw [hrest] at h
          cases h
          exact List.Perm.trans (List.Perm.swap y x ys)
            (List.Perm.cons _ (ih hrest))

theorem insertionSortE_perm {cmp : String → String → Except DepErr Int} :
    ∀ {l out : List String}, insertionSortE cmp l = .ok out → l.Perm out := by
  intro l
  induction l with
  | nil =>
    intro out h
    simp only [insertionSortE] at h
    cases h
    exact List.Perm.refl _
  | cons x xs ih =>
    intro out h
    simp only [insertionSortE, Bind.bind, Except.bind] at h
    cases hs : insertionSortE cmp xs with
    | error e => rw [hs] at h; simp at h
    | ok s =>
      rw [hs] at h
      dsimp only at h
      exact List.Perm.trans (List.Perm.cons _ (ih hs)) (orderedInsertE_perm h)

theorem orderedInsertE_pairwise {cache : PackageMapE} {S : List String}
    (Htot : ∀ a ∈ S, ∀ b ∈ S, a ≠ b →
      dependsOn cache a b = true ∨ dependsOn cache b a = true)
    {x : String} (hxS : x ∈ S) :
    ∀ {l out : List String}, (∀ z ∈ l, z ∈ S) → NoFwdDep cache l →
      orderedInsertE (sorter cache) x l = .ok out → NoFwdDep cache out := by
  intro l
  induction l with
  | nil =>
    intro out _ _ h
    simp only [orderedInsertE] at h
    cases h
    exact List.pairwise_singleton _ _
  | cons y ys ih =>
    intro out hlS hpw h
    simp only [orderedInsertE, Bind.bind, Except.bind] at h
    cases hc : sorter cache x y with
    | error e => rw [hc] at h; simp at h
    | ok c =>
      rw [hc] at h
      dsimp only at h
      unfold NoFwdDep at hpw
      rw [List.pairwise_cons] at hpw
      split at h
      · next hle =>
        cases h
        unfold NoFwdDep
        rw [List.pairwise_cons]
        refine ⟨?_, List.pairwise_cons.2 hpw⟩
        intro z hz
        rcases List.mem_cons.1 hz with rfl | hzys
        · exact sorter_ok_nonpos hc hle
        · by_cases hxz : dependsOn cache x z = true
          · exfalso
            by_cases hxy : x = y
            · subst hxy
              have := hpw.1 z hzys
              rw [hxz] at this
              cases this
            · rcases Htot x hxS y (hlS y (List.mem_cons_self _ _)) hxy with hd | hd
              · have := sorter_ok_nonpos hc hle
                rw [hd] at this
                cases this
              · have hyz := dependsOn_trans hd hxz
                have := hpw.1 z hzys
                rw [hyz] at this
                cases this
          · simpa using hxz
      · next hgt =>
        cases hrest : orderedInsertE (sorter cache) x ys with
        | error e => rw [hrest] at h; simp at h
        | ok out' =>
          rw [hrest] at h
          cases h
          have hout' : NoFwdDep cache out' :=
            ih (fun z hz => hlS z (List.mem_cons_of_mem _ hz)) hpw.2 hrest
          unfold NoFwdDep
          rw [List.pairwise_cons]
          refine ⟨?_, hout'⟩
          intro w hw
          have hw' : w ∈ x :: ys := (orderedInsertE_perm hrest).mem_iff.2 hw
          rcases List.mem_cons.1 hw' with rfl | hwys
          · have hpos : (0 : Int) < c := by omega
            exact (sorter_ok_pos hc hpos).2
          · exact hpw.1 w hwys

theorem insertionSortE_pairwise {cache : PackageMapE} {S : List String}
    (Htot : ∀ a ∈ S, ∀ b ∈ S, a ≠ b →
      dependsOn cache a b = true ∨ dependsOn cache b a = true) :
    ∀ {l out : List String}, (∀ z ∈ l, z ∈ S) →
      insertionSortE (sorter cache) l = .ok out → NoFwdDep cache out := by
  intro l
  induction l with
  | nil =>
    intro out _ h
    simp only [insertionSortE] at h
    cases h
    exact List.Pairwise.nil
  | cons x xs ih =>
    intro out hlS h
    simp only [insertionSortE, Bind.bind, Except.bind] at h
    cases hs : insertionSortE (sorter cache) xs with
    | error e => rw [hs] at h; simp at h
    | ok s =>
      rw [hs] at h
      dsimp only at h
      have hsS : ∀ z ∈ s, z ∈ S := by
        intro z hz
        exact hlS z (List.mem_cons_of_mem _ ((insertionSortE_perm hs).mem_iff.2 hz))
      exact orderedInsertE_pairwise Htot (hlS x (List.mem_cons_self _ _)) hsS
        (ih (fun z hz => hlS z (List.mem_cons_of_mem _ hz)) hs) h

/-- Lookup in the base map mirrors lookup in the on-disk file map. -/
theorem base_lookup_none {onDiskMsgs : List (String × String × Nat)}
    {n : String} (h : onDiskMsgs.lookup n = none) :
    (onDiskMsgs.map (fun t => (t.1, MsgEntryE.mk (some t.2.1) t.2.2))).lookup n
      = none := by
  induction onDiskMsgs with
  | nil => simp
  | cons p t ih =>
    rw [List.lookup] at h
    rw [List.map_cons, List.lookup]
    cases hbk : (n == p.1) with
    | true => rw [hbk] at h; simp at h
    | false =>
      rw [hbk] at h
      exact ih h

theorem synthStep_inv {onDiskMsgs : List (String × String × Nat)}
    {msgs : List (String × MsgEntryE)} (hinv : SynthInv onDiskMsgs msgs)
    (sub : String × Nat) :
    SynthInv onDiskMsgs
      (if (onDiskMsgs.lookup sub.1).isSome then msgs
       else setKeyL msgs sub.1 (MsgEntryE.mk none sub.2)) := by
  split
  · exact hinv
  · next hnone =>
    have hdn : onDiskMsgs.lookup sub.1 = none := by
      cases hl : onDiskMsgs.lookup sub.1 with
      | none => rfl
      | some w => rw [hl] at hnone; simp at hnone
    constructor
    · intro n f s hmem
      have hne : n ≠ sub.1 := by
        intro heq
        rw [← heq] at hdn
        have := lookup_isSome_of_mem hmem
        rw [hdn] at this
        cases this
      rw [lookup_setKeyL_other _ _ hne]
      exact hinv.1 n f s hmem
    · intro n e hn hl
      by_cases hne : n = sub.1
      · subst hne
        rw [lookup_setKeyL_self] at hl
        cases hl
        rfl
      · rw [lookup_setKeyL_other _ _ hne] at hl
        exact hinv.2 n e hn hl

theorem synthStep_seen {onDiskMsgs : List (String × String × Nat)}
    {msgs : List (String × MsgEntryE)} (sub : String × Nat) {n : String}
    (hn : onDiskMsgs.lookup n = none) :
    ((∃ e, (if (onDiskMsgs.lookup sub.1).isSome then msgs
            else setKeyL msgs sub.1 (MsgEntryE.mk none sub.2)).lookup n
        = some e) ↔
      (∃ e, msgs.lookup n = some e) ∨ n = sub.1) := by
  split
  · next hsome =>
    have hne : n ≠ sub.1 := by
      intro heq
      rw [← heq] at hsome
      rw [hn] at hsome
      simp at hsome
    simp [hne]
  · by_cases hne : n = sub.1
    · subst hne
      rw [lookup_setKeyL_self]
      simp
    · rw [lookup_setKeyL_other _ _ hne]
      simp [hne]

theorem synthFold_inner {onDiskMsgs : List (String × String × Nat)} :
    ∀ (subs : List (String × Nat)) (msgs : List (String × MsgEntryE)),
      SynthInv onDiskMsgs msgs →
      SynthInv onDiskMsgs
        (subs.foldl
          (fun msgs sub =>
            if (onDiskMsgs.lookup sub.1).isSome then msgs
            else setKeyL msgs sub.1 (MsgEntryE.mk none sub.2)) msgs) ∧
      ∀ n, onDiskMsgs.lookup n = none →
        ((∃ e, (subs.foldl
            (fun msgs sub =>
              if (onDiskMsgs.lookup sub.1).isSome then msgs
              else setKeyL msgs sub.1 (MsgEntryE.mk none sub.2)) msgs).lookup n
          = some e) ↔
        (∃ e, msgs.lookup n = some e) ∨ ∃ s, (n, s) ∈ subs) := by
  intro subs
  induction subs with
  | nil =>
    intro msgs hinv
    refine ⟨hinv, ?_⟩
    intro n _
    simp
  | cons sub rest ih =>
    intro msgs hinv
    rw [List.foldl_cons]
    obtain ⟨hinv', hseen'⟩ := ih _ (synthStep_inv hinv sub)
    refine ⟨hinv', ?_⟩
    intro n hn
    rw [hseen' n hn, synthStep_seen sub hn]
    constructor
    · rintro ((hm | rfl) | ⟨s, hs⟩)
      · exact Or.inl hm
      · exact Or.inr ⟨sub.2, List.mem_cons_self _ _⟩
      · exact Or.inr ⟨s, List.mem_cons_of_mem _ hs⟩
    · rintro (hm | ⟨s, hs⟩)
      · exact Or.inl (Or.inl hm)
      · rcases List.mem_cons.1 hs with heq | hmem
        · exact Or.inl (Or.inr (congrArg Prod.fst heq))
        · exact Or.inr ⟨s, hmem⟩

theorem synthFold_outer {onDiskMsgs : List (String × String × Nat)} :
    ∀ (subsList : List (List (String × Nat)))
      (msgs : List (String × MsgEntryE)),
      SynthInv onDiskMsgs msgs →
      SynthInv onDiskMsgs
        (subsList.foldl
          (fun msgs subs =>
            subs.foldl
              (fun msgs sub =>
                if (onDiskMsgs.lookup sub.1).isSome then msgs
                else setKeyL msgs sub.1 (MsgEntryE.mk none sub.2)) msgs)
          msgs) ∧
      ∀ n, onDiskMsgs.lookup n = none →
        ((∃ e, (subsList.foldl
            (fun msgs subs =>
              subs.foldl
                (fun msgs sub =>
                  if (onDiskMsgs.lookup sub.1).isSome then msgs
                  else setKeyL msgs sub.1 (MsgEntryE.mk none sub.2)) msgs)
            msgs).lookup n = some e) ↔
        (∃ e, msgs.lookup n = some e) ∨
          ∃ subs ∈ subsList, ∃ s, (n, s) ∈ subs) := by
  intro subsList
  induction subsList with
  | nil =>
    intro msgs hinv
    refine ⟨hinv, ?_⟩
    intro n _
    simp
  | cons subs rest ih =>
    intro msgs hinv
    rw [List.foldl_cons]
    obtain ⟨hinv1, hseen1⟩ := synthFold_inner subs msgs hinv
    obtain ⟨hinv2, hseen2⟩ := ih _ hinv1
    refine ⟨hinv2, ?_⟩
    intro n hn
    rw [hseen2 n hn, hseen1 n hn]
    constructor
    · rintro ((hm | ⟨s, hs⟩) | ⟨sl, hsl, s, hs⟩)
      · exact Or.inl hm
      · exact Or.inr ⟨subs, List.mem_cons_self _ _, s, hs⟩
      · exact Or.inr ⟨sl, List.mem_cons_of_mem _ hsl, s, hs⟩
    · rintro (hm | ⟨sl, hsl, s, hs⟩)
      · exact Or.inl (Or.inl hm)
      · rcases List.mem_cons.1 hsl with heq | hmem
        · exact Or.inl (Or.inr ⟨s, by rw [← heq]; exact hs⟩)
        · exact Or.inr ⟨sl, hmem, s, hs⟩

/-! ### Orchestration lemmas -/

theorem loadPackageBody_claimed
    {recur : String → MMState → MMState × List Ev × Option BuildErr}
    {packageName : String} {st : MMState}
    (h : (st.loadingPkgs.lookup packageName).isSome = true)
    (outputDirectory : String) (loadDeps writeFiles : Bool)
    (filterDepFunc : Option (String → Bool)) :
    loadPackageBody recur packageName outputDirectory loadDeps writeFiles
      filterDepFunc st = (st, [], none) := by
  unfold loadPackageBody
  rw [if_pos h]

/-- Idempotent re-entry: a package that already has a `LoadStatus` entry is
returned immediately, with no events, no error and an unchanged state. -/
theorem loadPackage_claimed {packageName : String} {st : MMState}
    (h : (st.loadingPkgs.lookup packageName).isSome = true)
    (fuel : Nat) (outputDirectory : String) (loadDeps writeFiles : Bool)
    (filterDepFunc : Option (String → Bool)) :
    loadPackage fuel packageName outputDirectory loadDeps writeFiles
      filterDepFunc st = (st, [], none) := by
  cases fuel with
  | zero =>
    rw [loadPackage]
    exact loadPackageBody_claimed h _ _ _ _
  | succ fuel =>
    rw [loadPackage]
    exact loadPackageBody_claimed h _ _ _ _

/-- When the package is unclaimed, the very first emitted event of the body is
the synchronous `LOADING` claim. -/
theorem loadPackageBody_trace_head
    {recur : String → MMState → MMState × List Ev × Option BuildErr}
    {packageName : String} {st : MMState}
    (h : st.loadingPkgs.lookup packageName = none)
    (outputDirectory : String) (loadDeps writeFiles : Bool)
    (filterDepFunc : Option (String → Bool)) :
    ∃ rest,
      (loadPackageBody recur packageName outputDirectory loadDeps writeFiles
        filterDepFunc st).2.1 =
      Ev.setStatus packageName LoadStatus.LOADING :: rest := by
  unfold loadPackageBody
  have h' : ¬((st.loadingPkgs.lookup packageName).isSome = true) := by
    rw [h]
    simp
  rw [if_neg h']
  dsimp only
  split
  · exact ⟨[], rfl⟩
  · split
    · exact ⟨_, rfl⟩
    · split
      · split
        · exact ⟨_, rfl⟩
        · exact ⟨_, rfl⟩
      · exact ⟨_, rfl⟩

theorem depsLoop_quiet
    {step : String → MMState → MMState × List Ev × Option BuildErr}
    (hstep : ∀ d s, QuietRun s (step d s)) :
    ∀ (deps : List String) (st : MMState), QuietRun st (depsLoop step deps st) := by
  intro deps
  induction deps with
  | nil =>
    intro st
    exact ⟨fun n => List.not_mem_nil _, fun p => List.not_mem_nil _,
      fun p => List.not_mem_nil _, fun n s h => h, rfl⟩
  | cons d rest ih =>
    intro st
    simp only [depsLoop]
    obtain ⟨h1, h2, h3, h4, h5⟩ := hstep d st
    split
    · exact ⟨h1, h2, h3, h4, h5⟩
    · obtain ⟨g1, g2, g3, g4, g5⟩ := ih (step d st).1
      refine ⟨?_, ?_, ?_, ?_, ?_⟩
      · intro n hn
        rcases List.mem_append.1 hn with hm | hm
        · exact h1 n hm
        · exact g1 n hm
      · intro p hp
        rcases List.mem_append.1 hp with hm | hm
        · exact h2 p hm
        · exact g2 p hm
      · intro p hp
        rcases List.mem_append.1 hp with hm | hm
        · exact h3 p hm
        · exact g3 p hm
      · intro n s hs
        exact g4 n s (h4 n s hs)
      · rw [g5, h5]

theorem loadPackageBody_quiet
    {recur : String → MMState → MMState × List Ev × Option BuildErr}
    (hrec : ∀ d s, QuietRun s (recur d s))
    (packageName outputDirectory : String) (loadDeps : Bool)
    (filterDepFunc : Option (String → Bool)) (st : MMState) :
    QuietRun st
      (loadPackageBody recur packageName outputDirectory loadDeps false
        filterDepFunc st) := by
  unfold loadPackageBody
  split
  · exact ⟨fun n => List.not_mem_nil _, fun p => List.not_mem_nil _,
      fun p => List.not_mem_nil _, fun n s h => h, rfl⟩
  · next hunclaimed =>
    have hnone : st.loadingPkgs.lookup packageName = none := by
      cases hl : st.loadingPkgs.lookup packageName with
      | none => rfl
      | some w => rw [hl] at hunclaimed; simp at hunclaimed
    have hpres1 : ∀ n s, st.loadingPkgs.lookup n = some s →
        (setKeyL st.loadingPkgs packageName LoadStatus.LOADING).lookup n
          = some s := by
      intro n s hs
      have hne : n ≠ packageName := by
        intro heq
        rw [heq, hnone] at hs
        cases hs
      rw [lookup_setKeyL_other _ _ hne]
      exact hs
    dsimp only
    split
    · exact ⟨fun n hn => by simp at hn, fun p hp => by simp at hp,
        fun p hp => by simp at hp, hpres1, rfl⟩
    · next dependencies heq =>
      have hq := depsLoop_quiet hrec dependencies
        ({ st with
           loadingPkgs :=
             setKeyL st.loadingPkgs packageName LoadStatus.LOADING })
      obtain ⟨g1, g2, g3, g4, g5⟩ := hq
      split
      · refine ⟨?_, ?_, ?_, ?_, g5⟩
        · intro n hn
          rcases List.mem_cons.1 hn with hm | hm
          · simp at hm
          · exact g1 n hm
        · intro p hp
          rcases List.mem_cons.1 hp with hm | hm
          · simp at hm
          · exact g2 p hm
        · intro p hp
          rcases List.mem_cons.1 hp with hm | hm
          · simp at hm
          · exact g3 p hm
        · intro n s hs
          exact g4 n s (hpres1 n s hs)
      · refine ⟨?_, ?_, ?_, ?_, g5⟩
        · intro n hn
          rcases List.mem_cons.1 hn with hm | hm
          · simp at hm
          · exact g1 n hm
        · intro p hp
          rcases List.mem_cons.1 hp with hm | hm
          · simp at hm
          · exact g2 p hm
        · intro p hp
          rcases List.mem_cons.1 hp with hm | hm
          · simp at hm
          · exact g3 p hm
        · intro n s hs
          exact g4 n s (hpres1 n s hs)

theorem loadPackage_quiet :
    ∀ (fuel : Nat) (packageName outputDirectory : String) (loadDeps : Bool)
      (filterDepFunc : Option (String → Bool)) (st : MMState),
      QuietRun st
        (loadPackage fuel packageName outputDirectory loadDeps false
          filterDepFunc st) := by
  intro fuel
  induction fuel with
  | zero =>
    intro packageName outputDirectory loadDeps filterDepFunc st
    rw [loadPackage]
    exact loadPackageBody_quiet
      (fun d s => ⟨fun n => List.not_mem_nil _, fun p => List.not_mem_nil _,
        fun p => List.not_mem_nil _, fun n s h => h, rfl⟩) _ _ _ _ _
  | succ fuel ih =>
    intro packageName outputDirectory loadDeps filterDepFunc st
    rw [loadPackage]
    exact loadPackageBody_quiet (fun d s => ih d _ _ _ s) _ _ _ _ _

/-- After an unclaimed run of the body with `writeFiles = false`, the
package's status is the `LOADING` the body set at its start. -/
theorem loadPackageBody_wfFalse_status
    {recur : String → MMState → MMState × List Ev × Option BuildErr}
    (hrec : ∀ d s, QuietRun s (recur d s))
    {packageName : String} {st : MMState}
    (h : st.loadingPkgs.lookup packageName = none)
    (outputDirectory : String) (loadDeps : Bool)
    (filterDepFunc : Option (String → Bool)) :
    (loadPackageBody recur packageName outputDirectory loadDeps false
      filterDepFunc st).1.loadingPkgs.lookup packageName
      = some LoadStatus.LOADING := by
  unfold loadPackageBody
  have h' : ¬((st.loadingPkgs.lookup packageName).isSome = true) := by
    rw [h]
    simp
  rw [if_neg h']
  dsimp only
  have hself : (setKeyL st.loadingPkgs packageName LoadStatus.LOADING).lookup
      packageName = some LoadStatus.LOADING :=
    lookup_setKeyL_self _ _ _
  split
  · exact hself
  · next dependencies heq =>
    have hq := depsLoop_quiet hrec dependencies
      ({ st with
         loadingPkgs :=
           setKeyL st.loadingPkgs packageName LoadStatus.LOADING })
    split
    · exact hq.2.2.2.1 _ _ hself
    · exact hq.2.2.2.1 _ _ hself

/-- `loadPackage` with `writeFiles = false` on an unclaimed package leaves
its status at `LOADING`. -/
theorem loadPackage_wfFalse_status {packageName : String} {st : MMState}
    (h : st.loadingPkgs.lookup packageName = none)
    (fuel : Nat) (outputDirectory : String) (loadDeps : Bool)
    (filterDepFunc : Option (String → Bool)) :
    (loadPackage fuel packageName outputDirectory loadDeps false
      filterDepFunc st).1.loadingPkgs.lookup packageName
      = some LoadStatus.LOADING := by
  cases fuel with
  | zero =>
    rw [loadPackage]
    exact loadPackageBody_wfFalse_status
      (fun d s => ⟨fun n => List.not_mem_nil _, fun p => List.not_mem_nil _,
        fun p => List.not_mem_nil _, fun n s hh => hh, rfl⟩) h _ _ _
  | succ fuel =>
    rw [loadPackage]
    exact loadPackageBody_wfFalse_status
      (fun d s => loadPackage_quiet fuel d _ _ _ s) h _ _ _

/-- In a list with no forward dependencies, a dependency target precedes its
dependent. -/
theorem noFwdDep_indexOf {cache : PackageMapE} {out : List String}
    {a b : String} (hpw : NoFwdDep cache out) (ha : a ∈ out) (hb : b ∈ out)
    (hdep : dependsOn cache a b = true) :
    out.indexOf b < out.indexOf a := by
  have hne : a ≠ b := by
    intro hab
    rw [hab] at hdep
    rw [dependsOn_self_false] at hdep
    cases hdep
  have hia : out.indexOf a < out.length := List.indexOf_lt_length.2 ha
  have hib : out.indexOf b < out.length := List.indexOf_lt_length.2 hb
  rcases Nat.lt_trichotomy (out.indexOf a) (out.indexOf b) with hlt | heq | hgt
  · exfalso
    have hP := List.pairwise_iff_getElem.1 hpw _ _ hia hib hlt
    rw [List.getElem_indexOf hia, List.getElem_indexOf hib] at hP
    rw [hdep] at hP
    cases hP
  · exfalso
    apply hne
    have h1 := List.getElem_indexOf hia
    have h2 := List.getElem_indexOf hib
    rw [← h1, ← h2]
    congr 1
  · exact hgt

/-! ## The claims -/

/-- Claim C1, counterexample: in the cycle-free cache
X → Z, Y, Z (every list entry a cache key), `sortPackageList` returns the
input list unchanged even though X transitively depends on Z, leaving Z
after X — the comparator sort never compares X with Z because Y is
incomparable with both.  This refutes the claim as stated. -/
theorem C1_counterexample :
    cacheAcyclicOk cacheXYZ = true ∧
    (["X", "Y", "Z"].all (fun p => (cacheXYZ.lookup p).isSome)) = true ∧
    sortPackageList ["X", "Y", "Z"] cacheXYZ = .ok ["X", "Y", "Z"] ∧
    dependsOn cacheXYZ "X" "Z" = true ∧
    List.indexOf "X" ["X", "Y", "Z"] = 0 ∧
    List.indexOf "Z" ["X", "Y", "Z"] = 2 := by
  decide

/-- Claim C1 (amended): whenever `sortPackageList` returns a list, that list
is a permutation of the input; if moreover every two distinct packages of the
input are dependency-comparable (one transitively depends on the other),
then every transitive dependency target precedes its dependent in the
output. -/
theorem C1_sortPackageList_topological (cache : PackageMapE)
    (l out : List String)
    (hok : sortPackageList l cache = .ok out) :
    l.Perm out ∧
    ((∀ a ∈ l, ∀ b ∈ l, a ≠ b →
        dependsOn cache a b = true ∨ dependsOn cache b a = true) →
      ∀ a ∈ l, ∀ b ∈ l, dependsOn cache a b = true →
        out.indexOf b < out.indexOf a) := by
  unfold sortPackageList at hok
  have hperm : l.Perm out := insertionSortE_perm hok
  refine ⟨hperm, ?_⟩
  intro htot a ha b hb hdep
  have hpw : NoFwdDep cache out :=
    insertionSortE_pairwise htot (fun z hz => hz) hok
  exact noFwdDep_indexOf hpw (hperm.mem_iff.1 ha) (hperm.mem_iff.1 hb) hdep

/-- Witness for C1: the concrete cache A ← B ← C with input [C, B, A]. -/
theorem C1_witness :
    (["C", "B", "A"] : List String).Perm ["A", "B", "C"] ∧
    List.indexOf "B" ["A", "B", "C"] < List.indexOf "C" ["A", "B", "C"] :=
  ⟨(C1_sortPackageList_topological cacheABC ["C", "B", "A"] ["A", "B", "C"]
      (by decide)).1,
   (C1_sortPackageList_topological cacheABC ["C", "B", "A"] ["A", "B", "C"]
      (by decide)).2 (by decide) "C" (by decide) "B" (by decide) (by decide)⟩

/-- Claim C2, counterexample: in the cache with edges A → B, B → C, B → A
and C → B, a
dependency path from A's direct dependency B leads back to A, yet
`getFullDependencySet "A"` raises no cycle error — the source traversal
re-enters B through the B–C cycle before checking the edge to A and loops
forever (outcome `diverge`). -/
theorem C2_counterexample :
    getFullDependencySet "A" cacheDiv = .error .diverge ∧
    DepErr.diverge ≠ DepErr.cycle ∧
    Reaches cacheDiv "A" "A" := by
  refine ⟨by decide, by decide, ?_⟩
  exact Reaches.cons (by decide : localDepsOf cacheDiv "A" = some ["B"])
    (by decide)
    (Reaches.head (by decide : localDepsOf cacheDiv "B" = some ["C", "A"])
      (by decide))

/-- Claim C2 (amended): `getFullDependencySet(A)` raises a cycle error only
if a dependency path from A leads back to A, and whenever it completes
successfully no such path exists.  (The converse direction of the original
claim fails: with a cycle not through A the traversal diverges instead of
completing or raising, as the counterexample shows.) -/
theorem C2_cycle_characterisation (A : String) (cache : PackageMapE) :
    (getFullDependencySet A cache = .error .cycle → Reaches cache A A) ∧
    (∀ ds, getFullDependencySet A cache = .ok ds → ¬ Reaches cache A A) :=
  ⟨getFullDependencySet_cycle_reaches,
   fun _ h => getFullDependencySet_ok_not_self h⟩

/-- Witness for C2: the two-package cycle raises the cycle error and indeed
has a path back to A; the acyclic cache A ← B ← C completes for C and indeed
has no path from C back to C. -/
theorem C2_witness :
    Reaches cacheTwoCycle "A" "A" ∧ ¬ Reaches cacheABC "C" "C" :=
  ⟨(C2_cycle_characterisation "A" cacheTwoCycle).1 (by decide),
   (C2_cycle_characterisation "C" cacheABC).2 ["A", "B"] (by decide)⟩

/-- Claim C3: in the two-package cache where A depends on B and B on A,
resolving either package raises the CycleError of the closure traversal; and
whenever the `sortPackageList` comparator finds both that A transitively
depends on B and that B transitively depends on A, it raises the distinct
fatal circular-dependency error of the sort rather than returning an
ordering. -/
theorem C3_two_node_cycle :
    getFullDependencySet "A" cacheTwoCycle = .error .cycle ∧
    getFullDependencySet "B" cacheTwoCycle = .error .cycle ∧
    ∀ (aDeps bDeps : List String) (pkgA pkgB : String),
      aDeps.contains pkgB = true → bDeps.contains pkgA = true →
      sorterCheck aDeps bDeps pkgA pkgB = .error .sortCycle ∧
      DepErr.sortCycle ≠ DepErr.cycle := by
  refine ⟨by decide, by decide, ?_⟩
  intro aDeps bDeps pkgA pkgB ha hb
  refine ⟨?_, by decide⟩
  unfold sorterCheck
  rw [ha, hb]
  simp

/-- Witness for C3: the comparator decision on concrete mutual dependency
lists. -/
theorem C3_witness :
    sorterCheck ["B"] ["A"] "A" "B" = .error .sortCycle ∧
    DepErr.sortCycle ≠ DepErr.cycle :=
  C3_two_node_cycle.2.2 ["B"] ["A"] "A" "B" (by decide) (by decide)

/-- Claim C4: for the concrete cache in which A has no dependency, B depends
on A and C depends on A and B, `sortPackageList([C, B, A])` returns
`[A, B, C]`. -/
theorem C4_scenario :
    sortPackageList ["C", "B", "A"] cacheABC = .ok ["A", "B", "C"] := by
  decide

/-- Claim C5: in the cache built by `_loadMessagesInCache`, on-disk message
entries are kept unchanged (with their source file and parsed spec), every
entry for a name absent from the on-disk file map carries no source file, and
for such a name an entry exists exactly when some action of the package
synthesized a sub-message of that name — the on-disk definition silently
suppresses the synthesized one. -/
theorem C5_synthesized_submessages
    (onDiskMsgs : List (String × String × Nat))
    (actionSubs : List (List (String × Nat)))
    (hnd : (onDiskMsgs.map Prod.fst).Nodup) :
    (∀ n f s, (n, (f, s)) ∈ onDiskMsgs →
      (buildPkgMessages onDiskMsgs actionSubs).lookup n
        = some (MsgEntryE.mk (some f) s)) ∧
    (∀ n e, onDiskMsgs.lookup n = none →
      (buildPkgMessages onDiskMsgs actionSubs).lookup n = some e →
      e.file = none) ∧
    (∀ n, onDiskMsgs.lookup n = none →
      ((∃ e, (buildPkgMessages onDiskMsgs actionSubs).lookup n = some e) ↔
        ∃ subs ∈ actionSubs, ∃ s, (n, s) ∈ subs)) := by
  have hbase1 : ∀ n f s, (n, (f, s)) ∈ onDiskMsgs →
      ((onDiskMsgs.map
          (fun t => (t.1, MsgEntryE.mk (some t.2.1) t.2.2))).lookup n)
        = some (MsgEntryE.mk (some f) s) := by
    intro n f s hmem
    apply lookup_of_mem_nodup
    · rw [List.map_map]
      simpa using hnd
    · exact List.mem_map_of_mem _ hmem
  have hbase : SynthInv onDiskMsgs
      (onDiskMsgs.map (fun t => (t.1, MsgEntryE.mk (some t.2.1) t.2.2))) := by
    refine ⟨hbase1, ?_⟩
    intro n e hn hl
    rw [base_lookup_none hn] at hl
    cases hl
  obtain ⟨⟨hi1, hi2⟩, hseen⟩ := synthFold_outer actionSubs _ hbase
  unfold buildPkgMessages
  refine ⟨hi1, hi2, ?_⟩
  intro n hn
  rw [hseen n hn]
  rw [base_lookup_none hn]
  simp

/-- Witness for C5: one on-disk message `Goal` and one action synthesizing
`Goal` and `Result`: the on-disk `Goal` entry is kept, and `Result` gets a
file-less entry. -/
theorem C5_witness :
    (buildPkgMessages [("Goal", ("goal.msg", 1))]
        [[("Goal", 5), ("Result", 6)]]).lookup "Goal"
      = some (MsgEntryE.mk (some "goal.msg") 1) ∧
    (∃ e, (buildPkgMessages [("Goal", ("goal.msg", 1))]
        [[("Goal", 5), ("Result", 6)]]).lookup "Result" = some e) := by
  have h := C5_synthesized_submessages [("Goal", ("goal.msg", 1))]
    [[("Goal", 5), ("Result", 6)]] (by decide)
  refine ⟨h.1 "Goal" "goal.msg" 1 (by decide), ?_⟩
  exact (h.2.2 "Result" (by decide)).2
    ⟨[("Goal", 5), ("Result", 6)], by decide, 6, by decide⟩

/-- Claim C6: calling `loadPackage` for a package that already has a
`LoadStatus` entry (loading or loaded) returns immediately: no error, no
emitted events (in particular no filesystem writes), and the state — both
the load-state map and the package cache — is returned unchanged. -/
theorem C6_idempotent_reentry (fuel : Nat)
    (packageName outputDirectory : String) (loadDeps writeFiles : Bool)
    (filterDepFunc : Option (String → Bool)) (st : MMState)
    (h : (st.loadingPkgs.lookup packageName).isSome = true) :
    loadPackage fuel packageName outputDirectory loadDeps writeFiles
      filterDepFunc st = (st, [], none) :=
  loadPackage_claimed h fuel outputDirectory loadDeps writeFiles filterDepFunc

/-- Witness for C6: a package already loading is returned unchanged. -/
theorem C6_witness :
    loadPackage 3 "A" "out" true true none
        (MMState.mk [("A", LoadStatus.LOADING)] cacheABC)
      = (MMState.mk [("A", LoadStatus.LOADING)] cacheABC, [], none) :=
  C6_idempotent_reentry 3 "A" "out" true true none
    (MMState.mk [("A", LoadStatus.LOADING)] cacheABC) (by decide)

/-- Claim C7: in every run of `loadPackage` that does not return at the
already-claimed check, the very first emitted event is the synchronous
`LOADING` claim — it precedes every dependency build and every filesystem
operation of the run; consequently any request for the same package
dispatched once the claim is set observes a claimed state and performs no
work at all. -/
theorem C7_claim_before_suspend (fuel : Nat)
    (packageName outputDirectory : String) (loadDeps writeFiles : Bool)
    (filterDepFunc : Option (String → Bool)) (st : MMState)
    (h : st.loadingPkgs.lookup packageName = none) :
    (∃ rest, (loadPackage fuel packageName outputDirectory loadDeps writeFiles
        filterDepFunc st).2.1
      = Ev.setStatus packageName LoadStatus.LOADING :: rest) ∧
    ∀ (st' : MMState) (fuel2 : Nat) (od2 : String) (ld2 wf2 : Bool)
      (ff2 : Option (String → Bool)),
      st'.loadingPkgs.lookup packageName = some LoadStatus.LOADING →
      loadPackage fuel2 packageName od2 ld2 wf2 ff2 st' = (st', [], none) := by
  constructor
  · cases fuel with
    | zero =>
      rw [loadPackage]
      exact loadPackageBody_trace_head h _ _ _ _
    | succ fuel =>
      rw [loadPackage]
      exact loadPackageBody_trace_head h _ _ _ _
  · intro st' fuel2 od2 ld2 wf2 ff2 h'
    exact loadPackage_claimed (by rw [h']; rfl) fuel2 od2 ld2 wf2 ff2

/-- Witness for C7: a fresh run on an empty load-state map emits the claim
first, and a second request after the claim is a no-op. -/
theorem C7_witness :
    (∃ rest, (loadPackage 2 "A" "out" true false none
        (MMState.mk [] cacheABC)).2.1
      = Ev.setStatus "A" LoadStatus.LOADING :: rest) ∧
    loadPackage 2 "A" "out" true false none
        (MMState.mk [("A", LoadStatus.LOADING)] cacheABC)
      = (MMState.mk [("A", LoadStatus.LOADING)] cacheABC, [], none) := by
  have h := C7_claim_before_suspend 2 "A" "out" true false none
    (MMState.mk [] cacheABC) rfl
  exact ⟨h.1, h.2 (MMState.mk [("A", LoadStatus.LOADING)] cacheABC)
    2 "out" true false none (by decide)⟩

/-- Claim C8, counterexample: the builtin-type table does have exactly 16
entries, but the specification's enumeration of those entries lists only 14
kinds — `float32` (and `float64`) are in the table yet missing from the
enumeration, so the table is not the enumerated set. -/
theorem C8_counterexample :
    typeMap.length = 16 ∧
    ("float32", "number") ∈ typeMap ∧
    "float32" ∉ specEnumeratedKinds ∧
    specEnumeratedKinds.length = 14 := by
  decide

/-- Claim C8 (amended): the builtin-type table is fixed with exactly 16
entries — signed and unsigned integers of widths 8/16/32/64, `bool`, `byte`,
`char`, `string`, `time`, `duration`, **and `float32` and `float64`** — in
which `time` and `duration` both map to the same `BuiltinTime` text naming
the two-field (secs, nsecs) shape; and every scalar kind absent from the
table (for example `"wstring"`) makes `getTypeStringForBuiltin` raise the
unknown-builtin error. -/
theorem C8_builtin_table :
    typeMap.map Prod.fst =
      ["char", "byte", "bool", "int8", "uint8", "int16", "uint16", "int32",
       "uint32", "int64", "uint64", "float32", "float64", "string", "time",
       "duration"] ∧
    typeMap.length = 16 ∧
    typeMap.lookup "time" = some "BuiltinTime" ∧
    typeMap.lookup "duration" = some "BuiltinTime" ∧
    builtinTimeShape = [("secs", "number"), ("nsecs", "number")] ∧
    getTypeStringForBuiltin "wstring" = .error (unknownBuiltinMsg "wstring") ∧
    ∀ k, typeMap.lookup k = none →
      getTypeStringForBuiltin k = .error (unknownBuiltinMsg k) := by
  refine ⟨by decide, by decide, by decide, by decide, by decide, by decide, ?_⟩
  intro k hk
  unfold getTypeStringForBuiltin
  rw [hk]

/-- Witness for C8: the unknown-kind clause at `"wstring"`. -/
theorem C8_witness :
    getTypeStringForBuiltin "wstring" = .error (unknownBuiltinMsg "wstring") :=
  C8_builtin_table.2.2.2.2.2.2 "wstring" (by decide)

/-- Claim C9: `getMessageSpec` is a total function (the embedding returns an
`Option` and raises nothing): an absent package yields `null`; with the
package present, an exact-name hit returns that spec, otherwise the
all-lowercase form of the name is tried and returned on a hit, and `null` is
returned when both miss. -/
theorem C9_getMessageSpec_total (cache : PackageMapE)
    (pkg messageName : String) (type : MsgKindE) :
    (cache.lookup pkg = none →
      getMessageSpec cache pkg messageName type = none) ∧
    (∀ entry, cache.lookup pkg = some entry →
      (∀ e, (kindCache entry type).lookup messageName = some e →
        getMessageSpec cache pkg messageName type = some e.spec) ∧
      (∀ e, (kindCache entry type).lookup messageName = none →
        (kindCache entry type).lookup (toLowerCaseE messageName) = some e →
        getMessageSpec cache pkg messageName type = some e.spec) ∧
      ((kindCache entry type).lookup messageName = none →
        (kindCache entry type).lookup (toLowerCaseE messageName) = none →
        getMessageSpec cache pkg messageName type = none)) := by
  constructor
  · intro h
    unfold getMessageSpec
    rw [h]
  · intro entry hent
    refine ⟨?_, ?_, ?_⟩
    · intro e he
      unfold getMessageSpec
      rw [hent]
      dsimp only
      cases type <;> (unfold kindCache at he; rw [he])
    · intro e hn he
      unfold getMessageSpec
      rw [hent]
      dsimp only
      cases type <;> (unfold kindCache at hn he; rw [hn, he])
    · intro hn hl
      unfold getMessageSpec
      rw [hent]
      dsimp only
      cases type <;> (unfold kindCache at hn hl; rw [hn, hl])

/-- Witness for C9: an absent package yields none; `"Header"` misses exactly
but hits its lowercase form `"header"`; a name missing both ways yields
none. -/
theorem C9_witness :
    getMessageSpec [] "p" "N" MsgKindE.msg = none ∧
    getMessageSpec c9cache "std_msgs" "Header" MsgKindE.msg = some 7 ∧
    getMessageSpec c9cache "std_msgs" "Nope" MsgKindE.msg = none := by
  refine ⟨(C9_getMessageSpec_total [] "p" "N" MsgKindE.msg).1 rfl, ?_, ?_⟩
  · exact ((C9_getMessageSpec_total c9cache "std_msgs" "Header"
        MsgKindE.msg).2
        (PackageEntryE.mk [("header", MsgEntryE.mk (some "Header.msg") 7)]
          [] [] []) (by decide)).2.1
      (MsgEntryE.mk (some "Header.msg") 7) (by decide) (by decide)
  · exact ((C9_getMessageSpec_total c9cache "std_msgs" "Nope"
        MsgKindE.msg).2
        (PackageEntryE.mk [("header", MsgEntryE.mk (some "Header.msg") 7)]
          [] [] []) (by decide)).2.2 (by decide) (by decide)

/-- Claim C10: a `loadPackage` run with `writeFiles = false` on an unclaimed
package leaves that package's `LoadStatus` at `LOADING` — `LOADED` is
assigned only inside the write phase, which such a run never enters, so its
trace contains no `LOADED` transition and no filesystem event at all — and a
later call for the same package on the resulting state returns immediately
with no events and no error. -/
theorem C10_writeFiles_false (fuel : Nat)
    (packageName outputDirectory : String) (loadDeps : Bool)
    (filterDepFunc : Option (String → Bool)) (st : MMState)
    (h : st.loadingPkgs.lookup packageName = none) :
    (loadPackage fuel packageName outputDirectory loadDeps false filterDepFunc
        st).1.loadingPkgs.lookup packageName = some LoadStatus.LOADING ∧
    (∀ n, Ev.setStatus n LoadStatus.LOADED ∉
      (loadPackage fuel packageName outputDirectory loadDeps false
        filterDepFunc st).2.1) ∧
    (∀ p, Ev.fileWrite p ∉
      (loadPackage fuel packageName outputDirectory loadDeps false
        filterDepFunc st).2.1) ∧
    (∀ p, Ev.mkdir p ∉
      (loadPackage fuel packageName outputDirectory loadDeps false
        filterDepFunc st).2.1) ∧
    ∀ (fuel2 : Nat) (od2 : String) (ld2 wf2 : Bool)
      (ff2 : Option (String → Bool)),
      loadPackage fuel2 packageName od2 ld2 wf2 ff2
          (loadPackage fuel packageName outputDirectory loadDeps false
            filterDepFunc st).1
        = ((loadPackage fuel packageName outputDirectory loadDeps false
            filterDepFunc st).1, [], none) := by
  have hq := loadPackage_quiet fuel packageName outputDirectory loadDeps
    filterDepFunc st
  have hst := loadPackage_wfFalse_status h fuel outputDirectory loadDeps
    filterDepFunc
  refine ⟨hst, hq.1, hq.2.2.1, hq.2.1, ?_⟩
  intro fuel2 od2 ld2 wf2 ff2
  exact loadPackage_claimed (by rw [hst]; rfl) fuel2 od2 ld2 wf2 ff2

/-- Witness for C10: building C (with its dependency subtree) without
writing files leaves C loading, and a later full call is a no-op. -/
theorem C10_witness :
    (loadPackage 3 "C" "out" true false none
        (MMState.mk [] cacheABC)).1.loadingPkgs.lookup "C"
      = some LoadStatus.LOADING ∧
    loadPackage 2 "C" "o2" true true none
        (loadPackage 3 "C" "out" true false none (MMState.mk [] cacheABC)).1
      = ((loadPackage 3 "C" "out" true false none
          (MMState.mk [] cacheABC)).1, [], none) := by
  have h := C10_writeFiles_false 3 "C" "out" true none
    (MMState.mk [] cacheABC) rfl
  exact ⟨h.1, h.2.2.2.2 2 "o2" true true none⟩
